import Mathlib

/-!
Shallow embedding of the per-pixel terrain/contour pipeline from the
fragment shader of guidobouman/guido.vc (the `fragmentShaderSource`
string): the hash and value-noise primitives, the fractal Brownian
motion combinator, the three terrain style generators, the style
dispatcher, and the contour-line renderer.  GLSL floats are modelled as
real numbers; GLSL builtins (`fract`, `mod`, `mix`, `clamp`,
`smoothstep`, `pow`) are given their specified real semantics.
-/

noncomputable section

namespace Shader

/-- GLSL `fract(x) = x - floor(x)`. -/
def glFract (x : ℝ) : ℝ := Int.fract x

/-- GLSL `mod(x, y) = x - y * floor(x / y)`. -/
def glMod (x y : ℝ) : ℝ := x - y * ⌊x / y⌋

/-- GLSL `mix(x, y, a) = x * (1 - a) + y * a`. -/
def glMix (x y a : ℝ) : ℝ := x * (1 - a) + y * a

/-- GLSL `clamp(x, lo, hi) = min(max(x, lo), hi)`. -/
def glClamp (x lo hi : ℝ) : ℝ := min (max x lo) hi

/-- GLSL `pow(x, y)` on non-negative bases: the real power function. -/
def glPow (x y : ℝ) : ℝ := Real.rpow x y

/-- GLSL `smoothstep(edge0, edge1, x)`: clamp the normalized position to
`[0,1]` and apply the cubic Hermite curve `t*t*(3 - 2*t)`. -/
def smoothstep (edge0 edge1 x : ℝ) : ℝ :=
  let t := glClamp ((x - edge0) / (edge1 - edge0)) 0 1
  t * t * (3 - 2 * t)

/-- `float hash(vec2 p)`: `fract(sin(dot(p, vec2(127.1, 311.7))) * 43758.5453)`. -/
def hash (p : ℝ × ℝ) : ℝ :=
  glFract (Real.sin (p.1 * 127.1 + p.2 * 311.7) * 43758.5453)

/-- `float noise(vec2 p)`: smooth 2D value noise.  Split `p` into an
integer cell `i` and fractional offset `f`, smooth `f` with the Hermite
curve, hash the four cell corners, and bilinearly interpolate. -/
def noise (p : ℝ × ℝ) : ℝ :=
  let i : ℝ × ℝ := ((⌊p.1⌋ : ℝ), (⌊p.2⌋ : ℝ))
  let f : ℝ × ℝ := (glFract p.1, glFract p.2)
  let f : ℝ × ℝ := (f.1 * f.1 * (3 - 2 * f.1), f.2 * f.2 * (3 - 2 * f.2))
  let a := hash i
  let b := hash (i.1 + 1, i.2)
  let c := hash (i.1, i.2 + 1)
  let d := hash (i.1 + 1, i.2 + 1)
  glMix (glMix a b f.1) (glMix c d f.1) f.2

/-- The loop body of `fbm`: `for(int i = 0; i < 8; i++) { if (i >= octaves)
break; value += amplitude * noise(p * frequency); amplitude *= 0.5;
frequency *= 2.0; }`.  `fuel` counts the remaining iterations of the
`i < 8` loop bound. -/
def fbmLoop (p : ℝ × ℝ) (octaves : ℤ) :
    ℕ → ℤ → ℝ → ℝ → ℝ → ℝ
  | 0, _, value, _, _ => value
  | fuel + 1, i, value, amplitude, frequency =>
    if i ≥ octaves then value
    else
      fbmLoop p octaves fuel (i + 1)
        (value + amplitude * noise (p.1 * frequency, p.2 * frequency))
        (amplitude * 0.5) (frequency * 2)

/-- `float fbm(vec2 p, int octaves)`: fractal Brownian motion, summing up
to 8 octaves starting at `value = 0.0`, `amplitude = 0.5`,
`frequency = 1.0`. -/
def fbm (p : ℝ × ℝ) (octaves : ℤ) : ℝ :=
  fbmLoop p octaves 8 0 0 0.5 1

/-- `float generateMountains(vec2 p, float t)`. -/
def generateMountains (p : ℝ × ℝ) (t : ℝ) : ℝ :=
  let offset : ℝ × ℝ := (t * 0.02, t * 0.015)
  let pos : ℝ × ℝ := (p.1 + offset.1, p.2 + offset.2)
  let elevation := fbm pos 6
  let elevation := glPow elevation 1.5
  let ridges := 1 - |noise (pos.1 * 2, pos.2 * 2) * 2 - 1|
  let ridges := glPow ridges 3
  elevation * 0.7 + ridges * 0.3

/-- `float generateHills(vec2 p, float t)`. -/
def generateHills (p : ℝ × ℝ) (t : ℝ) : ℝ :=
  let offset : ℝ × ℝ := (t * 0.01, t * 0.008)
  let pos : ℝ × ℝ := (p.1 + offset.1, p.2 + offset.2)
  let elevation := fbm (pos.1 * 0.8, pos.2 * 0.8) 4
  let elevation := smoothstep 0.2 0.8 elevation
  let largeFeatures := noise (pos.1 * 0.3, pos.2 * 0.3) * 0.3
  elevation * 0.7 + largeFeatures

/-- `float generateAbstract(vec2 p, float t)`. -/
def generateAbstract (p : ℝ × ℝ) (t : ℝ) : ℝ :=
  let offset1 : ℝ × ℝ := (t * 0.03, -t * 0.025)
  let offset2 : ℝ × ℝ := (-t * 0.02, t * 0.035)
  let offset3 : ℝ × ℝ := (t * 0.015, t * 0.02)
  let layer1 := fbm (p.1 * 1.5 + offset1.1, p.2 * 1.5 + offset1.2) 5 * 0.4
  let layer2 := fbm (p.1 * 3.0 + offset2.1, p.2 * 3.0 + offset2.2) 4 * 0.3
  let layer3 := fbm (p.1 * 0.8 + offset3.1, p.2 * 0.8 + offset3.2) 3 * 0.3
  let elevation := layer1 + layer2 + layer3
  let elevation := glFract elevation
  elevation

/-- `float getElevation(vec2 p, float t)`: dispatch on the `terrainMode`
uniform (`0.0 = mountains, 1.0 = hills, 2.0 = abstract`). -/
def getElevation (terrainMode : ℝ) (p : ℝ × ℝ) (t : ℝ) : ℝ :=
  if terrainMode < 0.5 then generateMountains p t
  else if terrainMode < 1.5 then generateHills p t
  else generateAbstract p t

/-- The `distanceToLine` expression of `renderContour`:
`abs(mod(elevation, spacing) - spacing * 0.5)`. -/
def distanceToLine (elevation spacing : ℝ) : ℝ :=
  |glMod elevation spacing - spacing * 0.5|

/-- The `adaptiveThickness` expression of `renderContour`:
`thickness * max(elevationGradient, 0.01)`. -/
def adaptiveThickness (thickness elevationGradient : ℝ) : ℝ :=
  thickness * max elevationGradient 0.01

/-- `float renderContour(float elevation, float elevationGradient,
float spacing, float thickness)`. -/
def renderContour (elevation elevationGradient spacing thickness : ℝ) : ℝ :=
  let dist := distanceToLine elevation spacing
  let adaptive := adaptiveThickness thickness elevationGradient
  1 - smoothstep (adaptive * 0.5) (adaptive * 1.5) dist

/-! ### Range lemmas for the primitives -/

theorem hash_nonneg (p : ℝ × ℝ) : 0 ≤ hash p :=
  Int.fract_nonneg _

theorem hash_lt_one (p : ℝ × ℝ) : hash p < 1 :=
  Int.fract_lt_one _

/-- The Hermite smoothing curve `t*t*(3-2*t)` maps `[0,1]` into `[0,1]`. -/
theorem hermite_mem {t : ℝ} (h0 : 0 ≤ t) (h1 : t ≤ 1) :
    0 ≤ t * t * (3 - 2 * t) ∧ t * t * (3 - 2 * t) ≤ 1 := by
  constructor
  · have : 0 ≤ 3 - 2 * t := by linarith
    positivity
  · nlinarith [mul_nonneg (mul_nonneg (sub_nonneg.mpr h1) (sub_nonneg.mpr h1))
      (by linarith : (0:ℝ) ≤ 1 + 2 * t)]

theorem glMix_nonneg {x y a : ℝ} (hx : 0 ≤ x) (hy : 0 ≤ y)
    (ha0 : 0 ≤ a) (ha1 : a ≤ 1) : 0 ≤ glMix x y a := by
  have h1 : 0 ≤ 1 - a := by linarith
  unfold glMix
  positivity

theorem glMix_lt_one {x y a : ℝ} (hx : x < 1) (hy : y < 1)
    (ha0 : 0 ≤ a) (ha1 : a ≤ 1) : glMix x y a < 1 := by
  unfold glMix
  rcases lt_or_eq_of_le ha1 with h | h
  · nlinarith [mul_nonneg ha0 (sub_nonneg.mpr hy.le)]
  · subst h; nlinarith

theorem glMix_le_one {x y a : ℝ} (hx : x ≤ 1) (hy : y ≤ 1)
    (ha0 : 0 ≤ a) (ha1 : a ≤ 1) : glMix x y a ≤ 1 := by
  unfold glMix
  nlinarith [mul_nonneg ha0 (sub_nonneg.mpr hy), mul_nonneg (sub_nonneg.mpr ha1) (sub_nonneg.mpr hx)]

/-- The smoothed fractional offset used inside `noise` lies in `[0,1]`. -/
theorem smoothedFract_mem (x : ℝ) :
    0 ≤ glFract x * glFract x * (3 - 2 * glFract x) ∧
      glFract x * glFract x * (3 - 2 * glFract x) ≤ 1 :=
  hermite_mem (Int.fract_nonneg x) (Int.fract_lt_one x).le

theorem noise_nonneg (p : ℝ × ℝ) : 0 ≤ noise p := by
  unfold noise
  have hx := smoothedFract_mem p.1
  have hy := smoothedFract_mem p.2
  exact glMix_nonneg
    (glMix_nonneg (hash_nonneg _) (hash_nonneg _) hx.1 hx.2)
    (glMix_nonneg (hash_nonneg _) (hash_nonneg _) hx.1 hx.2)
    hy.1 hy.2

theorem noise_lt_one (p : ℝ × ℝ) : noise p < 1 := by
  unfold noise
  have hx := smoothedFract_mem p.1
  have hy := smoothedFract_mem p.2
  exact glMix_lt_one
    (glMix_lt_one (hash_lt_one _) (hash_lt_one _) hx.1 hx.2)
    (glMix_lt_one (hash_lt_one _) (hash_lt_one _) hx.1 hx.2)
    hy.1 hy.2

theorem noise_le_one (p : ℝ × ℝ) : noise p ≤ 1 :=
  (noise_lt_one p).le

/-! ### fbm loop lemmas -/

theorem fbmLoop_nonneg (p : ℝ × ℝ) (o : ℤ) (fuel : ℕ) :
    ∀ (i : ℤ) (value amplitude frequency : ℝ), 0 ≤ value → 0 ≤ amplitude →
      0 ≤ fbmLoop p o fuel i value amplitude frequency := by
  induction fuel with
  | zero => intro i value amplitude frequency hv _; simpa [fbmLoop] using hv
  | succ fuel ih =>
    intro i value amplitude frequency hv ha
    rw [fbmLoop]
    split
    · exact hv
    · exact ih (i + 1) _ _ _
        (add_nonneg hv (mul_nonneg ha (noise_nonneg _)))
        (by positivity)

/-- Geometric upper bound on the fbm loop: each of the remaining steps
adds at most the current amplitude, which halves every step. -/
theorem fbmLoop_le (p : ℝ × ℝ) (o : ℤ) (fuel : ℕ) :
    ∀ (i : ℤ) (value amplitude frequency : ℝ), 0 ≤ amplitude →
      fbmLoop p o fuel i value amplitude frequency ≤
        value + amplitude * 2 * (1 - (0.5 : ℝ) ^ min fuel (o - i).toNat) := by
  induction fuel with
  | zero =>
    intro i value amplitude frequency _
    simp [fbmLoop]
  | succ fuel ih =>
    intro i value amplitude frequency ha
    rw [fbmLoop]
    split
    · rename_i hio
      have h0 : (o - i).toNat = 0 := by omega
      simp [h0]
    · rename_i hio
      have hio' : i < o := by omega
      have hstep := ih (i + 1)
        (value + amplitude * noise (p.1 * frequency, p.2 * frequency))
        (amplitude * 0.5) (frequency * 2) (by positivity)
      refine hstep.trans ?_
      set s := min (fuel + 1) (o - i).toNat with hs
      have hs1 : 1 ≤ s := by omega
      have hs' : min fuel (o - (i + 1)).toNat = s - 1 := by omega
      rw [hs']
      obtain ⟨k, hk⟩ : ∃ k, s = k + 1 := ⟨s - 1, by omega⟩
      rw [hk]
      have hpow : (0.5 : ℝ) ^ (k + 1 - 1) = 2 * (0.5 : ℝ) ^ (k + 1) := by
        rw [Nat.add_sub_cancel, pow_succ]; ring
      rw [hpow]
      nlinarith [mul_nonneg ha
        (sub_nonneg.mpr (noise_le_one (p.1 * frequency, p.2 * frequency))),
        pow_nonneg (by norm_num : (0:ℝ) ≤ 0.5) (k + 1)]

theorem fbm_nonneg (p : ℝ × ℝ) (o : ℤ) : 0 ≤ fbm p o :=
  fbmLoop_nonneg p o 8 0 0 0.5 1 le_rfl (by norm_num)

theorem fbm_le_ceiling (p : ℝ × ℝ) (o : ℤ) :
    fbm p o ≤ 1 - (0.5 : ℝ) ^ min 8 o.toNat := by
  have h := fbmLoop_le p o 8 0 0 0.5 1 (by norm_num)
  have h8 : (o - 0).toNat = o.toNat := by omega
  rw [h8] at h
  calc fbm p o ≤ 0 + 0.5 * 2 * (1 - (0.5 : ℝ) ^ min 8 o.toNat) := h
    _ = 1 - (0.5 : ℝ) ^ min 8 o.toNat := by ring

theorem fbm_lt_one (p : ℝ × ℝ) (o : ℤ) : fbm p o < 1 := by
  have h := fbm_le_ceiling p o
  have hp : (0 : ℝ) < (0.5 : ℝ) ^ min 8 o.toNat := by positivity
  linarith

/-- C3: for every position whose coordinates are both integers, the noise
field's value at that position equals the hash primitive's value at that
exact integer point. -/
theorem noise_eq_hash_at_integer_points (a b : ℤ) :
    noise ((a : ℝ), (b : ℝ)) = hash ((a : ℝ), (b : ℝ)) := by
  simp [noise, glMix, glFract]

/-- C4: the fractal combinator evaluated with octave count 1 equals 0.5
times the noise field's value at that position at the base frequency. -/
theorem fbm_one_octave (p : ℝ × ℝ) : fbm p 1 = 0.5 * noise p := by
  simp [fbm, fbmLoop]

/-- C5: for every requested octave count `n ≥ 8`, the fractal combinator
returns the same value as with octave count 8 (it clamps to the maximum). -/
theorem fbm_clamps_octaves (p : ℝ × ℝ) (n : ℤ) (h : 8 ≤ n) :
    fbm p n = fbm p 8 := by
  have h0 : ¬ ((0 : ℤ) ≥ n) := by omega
  have h1 : ¬ ((1 : ℤ) ≥ n) := by omega
  have h2 : ¬ ((2 : ℤ) ≥ n) := by omega
  have h3 : ¬ ((3 : ℤ) ≥ n) := by omega
  have h4 : ¬ ((4 : ℤ) ≥ n) := by omega
  have h5 : ¬ ((5 : ℤ) ≥ n) := by omega
  have h6 : ¬ ((6 : ℤ) ≥ n) := by omega
  have h7 : ¬ ((7 : ℤ) ≥ n) := by omega
  simp [fbm, fbmLoop, h0, h1, h2, h3, h4, h5, h6, h7]

/-- C5 witness: requesting 9 octaves yields the same value as 8. -/
theorem fbm_clamps_octaves_witness :
    fbm ((0 : ℝ), (0 : ℝ)) 9 = fbm ((0 : ℝ), (0 : ℝ)) 8 :=
  fbm_clamps_octaves _ 9 (by decide)

/-- C6: for `1 ≤ n ≤ 8`, the fractal combinator's output is bounded above
by `1 - 0.5 ^ n` (the sum of the octave amplitudes), and this amplitude
ceiling is non-decreasing as the octave count increases. -/
theorem fbm_amplitude_ceiling (p : ℝ × ℝ) (n m : ℤ) (hn1 : 1 ≤ n)
    (hn8 : n ≤ 8) (hnm : n ≤ m) :
    fbm p n ≤ 1 - (0.5 : ℝ) ^ n.toNat ∧
      1 - (0.5 : ℝ) ^ n.toNat ≤ 1 - (0.5 : ℝ) ^ m.toNat := by
  constructor
  · have h := fbm_le_ceiling p n
    have hmin : min 8 n.toNat = n.toNat := by omega
    rwa [hmin] at h
  · have hle : n.toNat ≤ m.toNat := by omega
    have := pow_le_pow_of_le_one (by norm_num : (0:ℝ) ≤ 0.5)
      (by norm_num : (0.5:ℝ) ≤ 1) hle
    linarith

/-- C6 witness at `n = 4`, `m = 6`, `p = (0, 0)`. -/
theorem fbm_amplitude_ceiling_witness :
    fbm ((0 : ℝ), (0 : ℝ)) 4 ≤ 1 - (0.5 : ℝ) ^ (4 : ℤ).toNat ∧
      1 - (0.5 : ℝ) ^ (4 : ℤ).toNat ≤ 1 - (0.5 : ℝ) ^ (6 : ℤ).toNat :=
  fbm_amplitude_ceiling _ 4 6 (by decide) (by decide) (by decide)

/-- C7: for every position, the noise field's output lies in `[0, 1]`. -/
theorem noise_mem_unit_interval (p : ℝ × ℝ) : 0 ≤ noise p ∧ noise p ≤ 1 :=
  ⟨noise_nonneg p, noise_le_one p⟩

/-- C2: the style dispatcher routes to exactly one generator by banding:
below 0.5 the mountains generator, between 0.5 and 1.5 the hills
generator, at or above 1.5 the abstract generator; in particular
selectors 0.0, 1.0 and 2.0 fall into those three bands. -/
theorem getElevation_routing (mode : ℝ) (p : ℝ × ℝ) (t : ℝ) :
    (mode < 0.5 → getElevation mode p t = generateMountains p t) ∧
      (0.5 ≤ mode → mode < 1.5 → getElevation mode p t = generateHills p t) ∧
      (1.5 ≤ mode → getElevation mode p t = generateAbstract p t) := by
  refine ⟨fun h => ?_, fun h1 h2 => ?_, fun h => ?_⟩
  · rw [getElevation, if_pos h]
  · rw [getElevation, if_neg (by linarith), if_pos h2]
  · rw [getElevation, if_neg (by linarith), if_neg (by linarith)]

/-- C2 witness: selectors 0.0, 1.0 and 2.0 route to the mountains, hills
and abstract generators respectively. -/
theorem getElevation_routing_witness :
    getElevation 0 ((0 : ℝ), (0 : ℝ)) 0 = generateMountains ((0 : ℝ), (0 : ℝ)) 0 ∧
      getElevation 1 ((0 : ℝ), (0 : ℝ)) 0 = generateHills ((0 : ℝ), (0 : ℝ)) 0 ∧
      getElevation 2 ((0 : ℝ), (0 : ℝ)) 0 = generateAbstract ((0 : ℝ), (0 : ℝ)) 0 :=
  ⟨(getElevation_routing 0 _ _).1 (by norm_num),
   (getElevation_routing 1 _ _).2.1 (by norm_num) (by norm_num),
   (getElevation_routing 2 _ _).2.2 (by norm_num)⟩

/-- C9: for non-negative gradient and positive base thickness, the
gradient-adaptive thickness is at least `0.01` times the base thickness,
strictly positive, and therefore the `smoothstep` edge width
(`adaptive * 1.5 - adaptive * 0.5`, the divisor inside `smoothstep`) is
nonzero: the renderer never divides by zero or produces a
zero-thickness line. -/
theorem adaptiveThickness_floored (thickness g : ℝ) (_hg : 0 ≤ g)
    (ht : 0 < thickness) :
    0.01 * thickness ≤ adaptiveThickness thickness g ∧
      0 < adaptiveThickness thickness g ∧
      adaptiveThickness thickness g * 1.5 -
        adaptiveThickness thickness g * 0.5 ≠ 0 := by
  have hmax : (0.01 : ℝ) ≤ max g 0.01 := le_max_right _ _
  have h1 : 0.01 * thickness ≤ adaptiveThickness thickness g := by
    unfold adaptiveThickness; nlinarith
  have h2 : 0 < adaptiveThickness thickness g := by
    unfold adaptiveThickness; nlinarith
  exact ⟨h1, h2, by intro hc; nlinarith⟩

/-- C9 witness: flat terrain (gradient exactly 0) with base thickness
0.001 still yields a strictly positive adaptive thickness. -/
theorem adaptiveThickness_floored_witness :
    0.01 * (0.001 : ℝ) ≤ adaptiveThickness 0.001 0 ∧
      0 < adaptiveThickness (0.001 : ℝ) 0 ∧
      adaptiveThickness (0.001 : ℝ) 0 * 1.5 -
        adaptiveThickness (0.001 : ℝ) 0 * 0.5 ≠ 0 :=
  adaptiveThickness_floored 0.001 0 le_rfl (by norm_num)

/-- The Hermite curve is monotone on `[0, 1]`. -/
theorem hermite_mono {t1 t2 : ℝ} (h0 : 0 ≤ t1) (h12 : t1 ≤ t2) (h1 : t2 ≤ 1) :
    t1 * t1 * (3 - 2 * t1) ≤ t2 * t2 * (3 - 2 * t2) := by
  have ht1le1 : t1 ≤ 1 := h12.trans h1
  have ht2ge0 : 0 ≤ t2 := h0.trans h12
  nlinarith [mul_nonneg (mul_nonneg (sub_nonneg.mpr h12) h0) (sub_nonneg.mpr ht1le1),
    mul_nonneg (mul_nonneg (sub_nonneg.mpr h12) ht2ge0) (sub_nonneg.mpr h1),
    mul_nonneg (mul_nonneg (sub_nonneg.mpr h12) h0) (sub_nonneg.mpr h1),
    mul_nonneg (mul_nonneg (sub_nonneg.mpr h12) ht2ge0) (sub_nonneg.mpr ht1le1)]

/-- `smoothstep` is monotone in its argument when the edges are ordered. -/
theorem smoothstep_mono {e0 e1 x y : ℝ} (he : e0 < e1) (hxy : x ≤ y) :
    smoothstep e0 e1 x ≤ smoothstep e0 e1 y := by
  unfold smoothstep glClamp
  have hc : 0 < e1 - e0 := by linarith
  have hdiv : (x - e0) / (e1 - e0) ≤ (y - e0) / (e1 - e0) :=
    (div_le_div_iff_of_pos_right hc).mpr (by linarith)
  have hmax : max ((x - e0) / (e1 - e0)) 0 ≤ max ((y - e0) / (e1 - e0)) 0 :=
    max_le_max hdiv le_rfl
  have hmin : min (max ((x - e0) / (e1 - e0)) 0) 1 ≤
      min (max ((y - e0) / (e1 - e0)) 0) 1 :=
    min_le_min hmax le_rfl
  have h0 : 0 ≤ min (max ((x - e0) / (e1 - e0)) 0) 1 :=
    le_min (le_max_right _ _) zero_le_one
  have h1 : min (max ((y - e0) / (e1 - e0)) 0) 1 ≤ 1 := min_le_right _ _
  exact hermite_mono h0 hmin h1

/-- C8: for fixed gradient, spacing and positive thickness, the contour
renderer's intensity is monotonically non-increasing in the renderer's
distance-to-nearest-line quantity: if the distance value at elevation
`e1` is at most the distance value at elevation `e2`, the intensity at
`e1` is at least the intensity at `e2`. -/
theorem renderContour_antitone_in_distance (g s th e1 e2 : ℝ)
    (hth : 0 < th) (hd : distanceToLine e1 s ≤ distanceToLine e2 s) :
    renderContour e2 g s th ≤ renderContour e1 g s th := by
  unfold renderContour
  have hpos : 0 < adaptiveThickness th g :=
    mul_pos hth (lt_of_lt_of_le (by norm_num) (le_max_right g 0.01))
  have he : adaptiveThickness th g * 0.5 < adaptiveThickness th g * 1.5 := by
    nlinarith
  have := smoothstep_mono he hd
  simp only []
  linarith

/-- C8 witness: with spacing 0.1, the distance quantity at elevation 0.15
is 0 and at elevation 0.1 is 0.05, so the intensity at 0.15 is at least
the intensity at 0.1. -/
theorem renderContour_antitone_in_distance_witness :
    renderContour 0.1 1 0.1 0.001 ≤ renderContour 0.15 1 0.1 0.001 :=
  renderContour_antitone_in_distance 1 0.1 0.001 0.15 0.1 (by norm_num)
    (by norm_num [distanceToLine, glMod])

/-- C1 evaluation: at spacing `0.1`, thickness `0.001`, gradient `1.0`,
the renderer returns intensity `0` at elevation `0.1` (a multiple of the
spacing) and intensity `1` at elevation `0.15` (the interval midpoint) —
the opposite of the documented behaviour, because `distanceToLine`
vanishes at the midpoint of the spacing interval, not on the multiple. -/
theorem renderContour_at_spec_scenario :
    renderContour 0.1 1 0.1 0.001 = 0 ∧ renderContour 0.15 1 0.1 0.001 = 1 := by
  constructor <;>
    norm_num [renderContour, distanceToLine, adaptiveThickness, glMod,
      smoothstep, glClamp, abs_of_nonneg, abs_of_nonpos]

/-! ### Generator range lemmas -/

theorem smoothstep_mem (e0 e1 x : ℝ) :
    0 ≤ smoothstep e0 e1 x ∧ smoothstep e0 e1 x ≤ 1 := by
  unfold smoothstep glClamp
  exact hermite_mem (le_min (le_max_right _ _) zero_le_one) (min_le_right _ _)

theorem generateMountains_mem (p : ℝ × ℝ) (t : ℝ) :
    0 ≤ generateMountains p t ∧ generateMountains p t < 1 := by
  simp only [generateMountains, glPow]
  have he0 : 0 ≤ fbm (p.1 + t * 0.02, p.2 + t * 0.015) 6 := fbm_nonneg _ 6
  have he1 : fbm (p.1 + t * 0.02, p.2 + t * 0.015) 6 < 1 := fbm_lt_one _ 6
  have hE0 : 0 ≤ Real.rpow (fbm (p.1 + t * 0.02, p.2 + t * 0.015) 6) 1.5 :=
    Real.rpow_nonneg he0 _
  have hE1 : Real.rpow (fbm (p.1 + t * 0.02, p.2 + t * 0.015) 6) 1.5 < 1 :=
    Real.rpow_lt_one he0 he1 (by norm_num)
  have hn0 : 0 ≤ noise ((p.1 + t * 0.02) * 2, (p.2 + t * 0.015) * 2) :=
    noise_nonneg _
  have hn1 : noise ((p.1 + t * 0.02) * 2, (p.2 + t * 0.015) * 2) ≤ 1 :=
    noise_le_one _
  have habs : |noise ((p.1 + t * 0.02) * 2, (p.2 + t * 0.015) * 2) * 2 - 1| ≤ 1 :=
    abs_le.mpr ⟨by linarith, by linarith⟩
  have hr0 : 0 ≤ 1 - |noise ((p.1 + t * 0.02) * 2, (p.2 + t * 0.015) * 2) * 2 - 1| := by
    linarith
  have hr1 : 1 - |noise ((p.1 + t * 0.02) * 2, (p.2 + t * 0.015) * 2) * 2 - 1| ≤ 1 := by
    have := abs_nonneg (noise ((p.1 + t * 0.02) * 2, (p.2 + t * 0.015) * 2) * 2 - 1)
    linarith
  have hR0 : 0 ≤ Real.rpow
      (1 - |noise ((p.1 + t * 0.02) * 2, (p.2 + t * 0.015) * 2) * 2 - 1|) 3 :=
    Real.rpow_nonneg hr0 _
  have hR1 : Real.rpow
      (1 - |noise ((p.1 + t * 0.02) * 2, (p.2 + t * 0.015) * 2) * 2 - 1|) 3 ≤ 1 :=
    Real.rpow_le_one hr0 hr1 (by norm_num)
  constructor
  · nlinarith
  · nlinarith

theorem generateHills_mem (p : ℝ × ℝ) (t : ℝ) :
    0 ≤ generateHills p t ∧ generateHills p t < 1 := by
  simp only [generateHills]
  have hs := smoothstep_mem 0.2 0.8
    (fbm ((p.1 + t * 0.01) * 0.8, (p.2 + t * 0.008) * 0.8) 4)
  have hn0 : 0 ≤ noise ((p.1 + t * 0.01) * 0.3, (p.2 + t * 0.008) * 0.3) :=
    noise_nonneg _
  have hn1 : noise ((p.1 + t * 0.01) * 0.3, (p.2 + t * 0.008) * 0.3) < 1 :=
    noise_lt_one _
  constructor
  · nlinarith [hs.1, hs.2]
  · nlinarith [hs.1, hs.2]

theorem generateAbstract_mem (p : ℝ × ℝ) (t : ℝ) :
    0 ≤ generateAbstract p t ∧ generateAbstract p t < 1 := by
  simp only [generateAbstract, glFract]
  exact ⟨Int.fract_nonneg _, Int.fract_lt_one _⟩

/-- C10: every one of the three terrain style generators, and therefore
the style dispatcher for every selector value, returns an elevation in
`[0, 1)` for every position and time: the output never reaches 1 (the
hash primitive indeed returns values in `[0, 1)`, see `hash_nonneg` and
`hash_lt_one`). -/
theorem elevation_mem_unit_interval (mode : ℝ) (p : ℝ × ℝ) (t : ℝ) :
    (0 ≤ generateMountains p t ∧ generateMountains p t < 1) ∧
      (0 ≤ generateHills p t ∧ generateHills p t < 1) ∧
      (0 ≤ generateAbstract p t ∧ generateAbstract p t < 1) ∧
      (0 ≤ getElevation mode p t ∧ getElevation mode p t < 1) := by
  refine ⟨generateMountains_mem p t, generateHills_mem p t,
    generateAbstract_mem p t, ?_⟩
  unfold getElevation
  split
  · exact generateMountains_mem p t
  · split
    · exact generateHills_mem p t
    · exact generateAbstract_mem p t

end Shader

end
